import Mathlib

/-!
Verification of the `fms::date` header (fms_date.h, final draft).

The embedding below translates the C++ source into Lean:

* `Ymd` models `std::chrono::year_month_day` (year stored as a 16-bit
  signed `short`, month and day as `unsigned char`; we keep the fields as
  `Int`/`Nat` and apply the storage truncation `truncYear` / `% 256` at the
  construction sites, exactly where the C++ constructors perform the
  narrowing casts).
* `days_from_civil` / `civil_from_days` are the serial-day conversions that
  `std::chrono` performs for `sys_days(ymd)` and `ymd(sys_days)` (Howard
  Hinnant's algorithms, used verbatim by libstdc++/libc++/MSVC).  C++ `/`
  and `%` on integers truncate toward zero, hence `Int.tdiv`/`Int.tmod` in
  the definitions; proofs rewrite them to Euclidean division where the
  operands are provably nonnegative.
* `periodic_*`, `schedule` model the `periodic` class (constructor with
  `valid()`/`reset()`, `operator bool`, `operator*`, `operator++`).  The
  C++ loops are modeled with explicit fuel; lemmas establish that the fuel
  chosen is sufficient for the configurations a theorem speaks about, and a
  separate predicate `resetTerminates` captures termination of the raw
  `reset()` loop itself.
* `adjust`/`adjustGo` model the recursive roll-adjustment function; the
  recursion is partial in C++ (it can recurse forever), so the model
  returns `Option Ymd` with recursion depth as fuel.
* The day-count fractions return `Rat`; the C++ functions return a
  `double`-valued duration.  Every numeric fact proved about them below is
  exact in the rationals and robust to the double rounding (the equalities
  asserted are between exactly representable values, the disequalities have
  slack far above one ulp).
-/

/-- Model of `std::chrono::year_month_day`: `using ymd = std::chrono::year_month_day`.
Fields are the stored values (year is stored as `short`, month/day as
`unsigned char`; the narrowing happens in the constructing functions). -/
structure Ymd where
  year : Int
  month : Nat
  day : Nat
deriving DecidableEq, Repr

/-- Narrowing cast `static_cast<short>` (two's complement, C++20 modular
semantics) applied by the `std::chrono::year(int)` constructor. -/
def truncYear (y : Int) : Int := (y + 32768) % 65536 - 32768

/-- Model of `make_ymd(int y, unsigned int m, unsigned int d)` from the
source: builds `ymd(year(y), month(m), day(d))`.  The chrono constructors
store `short`/`unsigned char`, hence the truncations; there is no
validation anywhere on this path. -/
def make_ymd (y : Int) (m d : Nat) : Ymd :=
  ⟨truncYear y, m % 256, d % 256⟩

/-- Number of days in a month under the Gregorian rule, as used by
`std::chrono`'s `ok()` (leap year iff divisible by 4 and not by 100 unless
by 400; C++ computes this with `%`, which agrees with `emod` on the
divisibility tests). -/
def monthLengthI (y m : Int) : Int :=
  if m = 2 then (if y % 4 = 0 ∧ (y % 100 ≠ 0 ∨ y % 400 = 0) then 29 else 28)
  else if m = 4 ∨ m = 6 ∨ m = 9 ∨ m = 11 then 30 else 31

/-- Model of `year_month_day::ok()`: year within the `short`-backed chrono
range `[-32767, 32767]`, month in `[1,12]`, day in `[1, last day]`. -/
def Ymd.okB (x : Ymd) : Bool :=
  decide (-32767 ≤ x.year) && decide (x.year ≤ 32767) &&
  decide (1 ≤ x.month) && decide (x.month ≤ 12) &&
  decide (1 ≤ x.day) && decide ((x.day : Int) ≤ monthLengthI x.year (x.month : Int))

/-- The field invariant of spec section 3 (month in `[1,12]`, day in
`[1, days-in-month]`), used to state the `make_ymd` claim. -/
def validFieldsB (y : Int) (m d : Nat) : Bool :=
  decide (1 ≤ m) && decide (m ≤ 12) &&
  decide (1 ≤ d) && decide ((d : Int) ≤ monthLengthI y (m : Int))

/-- Lexicographic strict comparison on (year, month, day): chrono's
`operator<=>` on `year_month_day`. -/
def ymdLtB (a b : Ymd) : Bool :=
  decide (a.year < b.year) ||
  (decide (a.year = b.year) &&
    (decide (a.month < b.month) ||
      (decide (a.month = b.month) && decide (a.day < b.day))))

/-- Lexicographic `<=` on (year, month, day). -/
def ymdLeB (a b : Ymd) : Bool := ymdLtB a b || decide (a = b)

/-- Months elapsed since year 0 month 1; proof-side measure for the month
arithmetic (not part of the source). -/
def monthIndex (x : Ymd) : Int := 12 * x.year + (x.month : Int) - 1

/-- Model of `ymd + std::chrono::months(k)`: chrono adds on the
`year_month` part (day unchanged) computing
`dmi = int(unsigned(month)) - 1 + k; dy = (dmi >= 0 ? dmi : dmi - 11) / 12`
with C++ truncating division, then `month = dmi - dy*12 + 1`.
The chrono `year` addition narrows to `short`; that narrowing is not
modeled here — the schedule theorems below carry explicit `monthIndex`
range hypotheses under which the narrowing never triggers. -/
def ymdAddMonths (x : Ymd) (k : Int) : Ymd :=
  ⟨x.year + (if 0 ≤ (x.month : Int) - 1 + k then (x.month : Int) - 1 + k else (x.month : Int) - 1 + k - 11).tdiv 12,
   (((x.month : Int) - 1 + k) - ((if 0 ≤ (x.month : Int) - 1 + k then (x.month : Int) - 1 + k else (x.month : Int) - 1 + k - 11).tdiv 12) * 12 + 1).toNat,
   x.day⟩

/-- The date `termination - months*k` (k period steps back from
termination), used to state the schedule anchoring claim. -/
def termStep (term : Ymd) (months : Int) (k : Nat) : Ymd :=
  ymdAddMonths term (-(months * (k : Int)))

/-- Intermediate `y` of Hinnant's `days_from_civil` (`y -= m <= 2`). -/
def dfc_y1 (y m : Int) : Int := if m ≤ 2 then y - 1 else y

/-- Era of `days_from_civil`: `(y >= 0 ? y : y - 399) / 400` with C++
truncating division. -/
def dfc_era (y m : Int) : Int :=
  (if 0 ≤ dfc_y1 y m then dfc_y1 y m else dfc_y1 y m - 399).tdiv 400

/-- Year of era: `y - era * 400`, in `[0, 399]`. -/
def dfc_yoe (y m : Int) : Int := dfc_y1 y m - dfc_era y m * 400

/-- Shifted month of the March-based year: `m + (m > 2 ? -3 : 9)`. -/
def dfc_mp (m : Int) : Int := if 2 < m then m - 3 else m + 9

/-- Day of year: `(153*mp + 2)/5 + d - 1`. -/
def dfc_doy (m d : Int) : Int := (153 * dfc_mp m + 2).tdiv 5 + d - 1

/-- Day of era: `yoe*365 + yoe/4 - yoe/100 + doy`. -/
def dfc_doe (y m d : Int) : Int :=
  dfc_yoe y m * 365 + (dfc_yoe y m).tdiv 4 - (dfc_yoe y m).tdiv 100 + dfc_doy m d

/-- Serial day number from civil date: Hinnant's `days_from_civil`, the
conversion `sys_days(ymd)` performed by `std::chrono` (epoch 1970-01-01).
This is the conversion used by `make_days` and `operator-` in the source. -/
def days_from_civil (y m d : Int) : Int :=
  dfc_era y m * 146097 + dfc_doe y m d - 719468

/-- Serial day number of a `Ymd` value: `sys_days(ymd)`. -/
def to_serial (x : Ymd) : Int := days_from_civil x.year (x.month : Int) (x.day : Int)

/-- Era of `civil_from_days`: `(z >= 0 ? z : z - 146096) / 146097` on the
shifted serial, C++ truncating division. -/
def cfd_era (z : Int) : Int :=
  (if 0 ≤ z + 719468 then z + 719468 else z + 719468 - 146096).tdiv 146097

/-- Day of era of `civil_from_days`, in `[0, 146096]`. -/
def cfd_doe (z : Int) : Int := z + 719468 - cfd_era z * 146097

/-- Year of era of `civil_from_days`:
`(doe - doe/1460 + doe/36524 - doe/146096) / 365`. -/
def cfd_yoe (z : Int) : Int :=
  (cfd_doe z - (cfd_doe z).tdiv 1460 + (cfd_doe z).tdiv 36524 - (cfd_doe z).tdiv 146096).tdiv 365

/-- Day of year of `civil_from_days`: `doe - (365*yoe + yoe/4 - yoe/100)`. -/
def cfd_doy (z : Int) : Int :=
  cfd_doe z - (365 * cfd_yoe z + (cfd_yoe z).tdiv 4 - (cfd_yoe z).tdiv 100)

/-- Shifted month of `civil_from_days`: `(5*doy + 2)/153`. -/
def cfd_mp (z : Int) : Int := (5 * cfd_doy z + 2).tdiv 153

/-- Day of month of `civil_from_days`: `doy - (153*mp + 2)/5 + 1`. -/
def cfd_day (z : Int) : Int := cfd_doy z - (153 * cfd_mp z + 2).tdiv 5 + 1

/-- Civil month of `civil_from_days`: `mp + (mp < 10 ? 3 : -9)`. -/
def cfd_month (z : Int) : Int := if cfd_mp z < 10 then cfd_mp z + 3 else cfd_mp z - 9

/-- Civil year of `civil_from_days`: `yoe + era*400 + (m <= 2)`. -/
def cfd_year (z : Int) : Int :=
  cfd_yoe z + cfd_era z * 400 + (if cfd_month z ≤ 2 then 1 else 0)

/-- Civil date from serial day number: Hinnant's `civil_from_days`, the
conversion `year_month_day(sys_days)` performed by `std::chrono`.  The
computed year passes through the `short`-storing `year(int)` constructor,
hence `truncYear`. -/
def civil_from_days (z : Int) : Ymd :=
  ⟨truncYear (cfd_year z), (cfd_month z).toNat, (cfd_day z).toNat⟩

/-- One `sys_days`-level step used by `adjust`:
`ymd(sys_days(date) + days(k))`. -/
def stepDays (x : Ymd) (k : Int) : Ymd := civil_from_days (to_serial x + k)

/-- Smallest `ok()` chrono date (year range is `[-32767, 32767]`). -/
def yminDate : Ymd := ⟨-32767, 1, 1⟩

/-- Largest `ok()` chrono date. -/
def ymaxDate : Ymd := ⟨32767, 12, 31⟩

/-- Field-level successor of a valid date (proof-side helper, not part of
the source): increment the day with month/year carry. -/
def nextDay (x : Ymd) : Ymd :=
  if (x.day : Int) < monthLengthI x.year (x.month : Int) then ⟨x.year, x.month, x.day + 1⟩
  else if x.month < 12 then ⟨x.year, x.month + 1, 1⟩
  else ⟨x.year + 1, 1, 1⟩

/-- Model of `periodic::valid()`:
`effective == termination ? months == 0 : (effective < termination) == (months > 0)`. -/
def periodic_validB (eff term : Ymd) (months : Int) : Bool :=
  if eff = term then decide (months = 0)
  else ymdLtB eff term == decide (0 < months)

/-- Model of the `periodic::reset()` loop body, with explicit fuel:
`while (current - months >= effective) current -= months`.  Each fueled
step performs one test of the loop condition. -/
def resetGo (eff : Ymd) (months : Int) : Nat → Ymd → Ymd
  | 0, c => c
  | n + 1, c =>
      if ymdLeB eff (ymdAddMonths c (-months)) then
        resetGo eff months n (ymdAddMonths c (-months))
      else c

/-- The raw C++ `reset()` loop terminates iff after finitely many steps the
loop condition `current - months >= effective` becomes false. -/
def resetTerminates (eff : Ymd) (months : Int) (c : Ymd) : Prop :=
  ∃ n, ymdLeB eff (ymdAddMonths (resetGo eff months n c) (-months)) = false

/-- Fuel sufficient for `reset()` whenever `months >= 1` (each executed
step lowers `monthIndex` by at least one and the condition pins it above
`monthIndex effective`). -/
def periodic_resetFuel (eff term : Ymd) : Nat :=
  (monthIndex term - monthIndex eff + 1).toNat

/-- State of `current` after the `periodic` constructor: `reset()` runs
exactly when `valid()` holds, otherwise `current` stays at `termination`. -/
def periodic_init (eff term : Ymd) (months : Int) : Ymd :=
  if periodic_validB eff term months then
    resetGo eff months (periodic_resetFuel eff term) term
  else term

/-- Fueled model of iterating `periodic` with
`operator bool` / `operator*` / `operator++`: emit `current` while
`current <= termination`, stepping `current += months`. -/
def emitGo (term : Ymd) (months : Int) : Nat → Ymd → List Ymd
  | 0, _ => []
  | n + 1, c => if ymdLeB c term then c :: emitGo term months n (ymdAddMonths c months) else []

/-- The full sequence of dates produced by `periodic(eff, term, months)`.
The fuel is sufficient (and the produced list equal to the real iteration)
whenever `months >= 1`; the lemmas below only evaluate it there. -/
def schedule (eff term : Ymd) (months : Int) : List Ymd :=
  emitGo term months
    ((monthIndex term - monthIndex (periodic_init eff term months)).toNat + 2)
    (periodic_init eff term months)

/-- First emitted date of `periodic(eff, term, months)` (the value of
`operator*` on the freshly constructed object when `operator bool` holds);
faithful for every configuration, fuel-independent. -/
def scheduleHead (eff term : Ymd) (months : Int) : Option Ymd :=
  if ymdLeB (periodic_init eff term months) term then some (periodic_init eff term months)
  else none

/-- Model of `enum class roll`. -/
inductive Roll where
  | none
  | following
  | previous
  | modified_following
  | modified_previous
deriving DecidableEq

/-- Scanning core of `adjust` for the `previous`/`following` conventions:
`if (!cal(date)) return date; return adjust(sys_days(date) + dir, conv, cal)`.
The C++ recursion has no bound; the model's fuel is the recursion depth
explored, `none` meaning the recursion has not produced a value within
that depth. -/
def adjustGo (cal : Ymd → Bool) (dir : Int) : Nat → Ymd → Option Ymd
  | 0, _ => Option.none
  | n + 1, x => if cal x = false then some x else adjustGo cal dir n (stepDays x dir)

/-- Iterated `sys_days` stepping, to state reachability of a business day
in a given direction. -/
def stepIter (dir : Int) : Nat → Ymd → Ymd
  | 0, x => x
  | n + 1, x => stepIter dir n (stepDays x dir)

/-- The raw `adjust` recursion in direction `dir` produces a value at some
depth. -/
def adjustSome (cal : Ymd → Bool) (dir : Int) (x : Ymd) : Prop :=
  ∃ n, adjustGo cal dir n x ≠ Option.none

/-- Model of `adjust(date, convention, cal)` from the source: first
`if (!cal(date)) return date;`, then the switch on the convention.  The
`modified_*` cases call `adjust(sys_days(date), following/previous, cal)`,
i.e. they restart from `ymd(sys_days(date))` — `stepDays x 0`. -/
def adjust (cal : Ymd → Bool) (conv : Roll) (fuel : Nat) (x : Ymd) : Option Ymd :=
  if cal x = false then some x
  else match conv with
  | Roll.none => some x
  | Roll.previous => adjustGo cal (-1) fuel x
  | Roll.following => adjustGo cal 1 fuel x
  | Roll.modified_following =>
      match adjustGo cal 1 fuel (stepDays x 0) with
      | some f => if f.month = x.month then some f else adjustGo cal (-1) fuel x
      | Option.none => Option.none
  | Roll.modified_previous =>
      match adjustGo cal (-1) fuel (stepDays x 0) with
      | some p => if p.month = x.month then some p else adjustGo cal 1 fuel x
      | Option.none => Option.none

/-- Model of chrono `weekday_from_days`:
`z >= -4 ? (z+4) % 7 : (z+5) % 7 + 6` with C++ truncating `%`
(Sunday = 0, ..., Saturday = 6). -/
def weekday_from_days (z : Int) : Int :=
  if -4 ≤ z then (z + 4).tmod 7 else (z + 5).tmod 7 + 6

/-- Model of `calendars::weekday`: true on Saturday and Sunday. -/
def calendars_weekday (x : Ymd) : Bool :=
  (weekday_from_days (to_serial x) == 6) || (weekday_from_days (to_serial x) == 0)

/-- Model of `dcf::_years` (Actual/Actual): `d1 - d0` converted from a
day-count to the `years` duration, whose period is 365.2425 days
(= 146097/400). -/
def dcf_years (d0 d1 : Ymd) : Rat :=
  ((to_serial d1 - to_serial d0 : Int) : Rat) * 400 / 146097

/-- Model of `dcf::_30_360`: day adjustments
`d0 = (t0.day == 31) ? 30 : t0.day`,
`d1 = (t1.day == 31 and d0 > 29) ? 30 : t1.day`, then
`(360*dy + 30*dm + dd) / 360`.  The C++ `dm`/`dd` are computed by unsigned
subtraction narrow-cast to `int`, which is exact integer subtraction for
the byte-sized stored values. -/
def dcf_30_360 (t0 t1 : Ymd) : Rat :=
  (((360 * (t1.year - t0.year)
    + 30 * ((t1.month : Int) - (t0.month : Int))
    + (((if t1.day = 31 ∧ (if t0.day = 31 then 30 else t0.day) > 29 then 30 else t1.day) : Int)
       - ((if t0.day = 31 then 30 else t0.day) : Int))) : Int) : Rat) / 360

/-- Model of `dcf::_actual_360`: `(sys_days(t1) - sys_days(t0)) / 360.`
is a `double`-rep duration still counted in days; the `years` return type
then applies the days-to-years period conversion (the `years` period is
365.2425 days = 146097/400), so the returned count is
`gap / 360 * 400 / 146097`. -/
def dcf_actual_360 (t0 t1 : Ymd) : Rat :=
  ((to_serial t1 - to_serial t0 : Int) : Rat) / 360 * 400 / 146097

/-- Model of `dcf::_actual_365`: as in `_actual_360` with denominator 365;
the returned `years` count is `gap / 365 * 400 / 146097`. -/
def dcf_actual_365 (t0 t1 : Ymd) : Rat :=
  ((to_serial t1 - to_serial t0 : Int) : Rat) / 365 * 400 / 146097

/-- The 30/360 rule exactly as worded in the spec (section 4.2): adjust d0
from 31 to 30 first, then adjust d1 to 30 when d1 is 31 and the possibly
adjusted d0 exceeds 29, and apply `(360*(y1-y0) + 30*(m1-m0) + (d1-d0))/360`.
Stated separately from `dcf_30_360` so the claim can compare the source
against the spec's wording. -/
def thirty_360_spec (t0 t1 : Ymd) : Rat :=
  ((360 * ((t1.year - t0.year : Int) : Rat)
    + 30 * (((t1.month : Int) - (t0.month : Int) : Int) : Rat)
    + ((((if t1.day = 31 ∧ 29 < (if t0.day = 31 then (30 : Nat) else t0.day) then (30 : Nat) else t1.day) : Int)
        - ((if t0.day = 31 then (30 : Nat) else t0.day) : Int) : Int) : Rat)) / 360)

/-! Section: Bridging lemmas: C++ truncating division to Euclidean division -/

/-- Truncating division agrees with Euclidean division on nonnegative
operands. -/
theorem tdiv_nn (a b : Int) (ha : 0 ≤ a) (hb : 0 ≤ b) : a.tdiv b = a / b :=
  Int.tdiv_eq_ediv ha hb

/-- The C++ idiom `(y >= 0 ? y : y - 11) / 12` computes the floor
division `y / 12`. -/
theorem tdiv_trick12 (y : Int) : (if 0 ≤ y then y else y - 11).tdiv 12 = y / 12 := by
  split
  · exact tdiv_nn _ _ (by omega) (by omega)
  · rename_i h
    have h2 : y - 11 = -(11 - y) := by ring
    rw [h2, Int.neg_tdiv, tdiv_nn _ _ (by omega) (by omega)]
    omega

/-- The C++ idiom `(y >= 0 ? y : y - 399) / 400` computes `y / 400`. -/
theorem tdiv_trick400 (y : Int) : (if 0 ≤ y then y else y - 399).tdiv 400 = y / 400 := by
  split
  · exact tdiv_nn _ _ (by omega) (by omega)
  · rename_i h
    have h2 : y - 399 = -(399 - y) := by ring
    rw [h2, Int.neg_tdiv, tdiv_nn _ _ (by omega) (by omega)]
    omega

/-- The C++ idiom `(z >= 0 ? z : z - 146096) / 146097` computes
`z / 146097`. -/
theorem tdiv_trick146097 (z : Int) : (if 0 ≤ z then z else z - 146096).tdiv 146097 = z / 146097 := by
  split
  · exact tdiv_nn _ _ (by omega) (by omega)
  · rename_i h
    have h2 : z - 146096 = -(146096 - z) := by ring
    rw [h2, Int.neg_tdiv, tdiv_nn _ _ (by omega) (by omega)]
    omega

/-! Section: Boolean comparison bridges -/

/-- Arithmetic characterization of the lexicographic strict order. -/
theorem ymdLtB_iff (a b : Ymd) : ymdLtB a b = true ↔
    (a.year < b.year ∨ (a.year = b.year ∧
      (a.month < b.month ∨ (a.month = b.month ∧ a.day < b.day)))) := by
  simp [ymdLtB]

/-- Arithmetic characterization of the lexicographic order. -/
theorem ymdLeB_iff (a b : Ymd) : ymdLeB a b = true ↔
    (a.year < b.year ∨ (a.year = b.year ∧
      (a.month < b.month ∨ (a.month = b.month ∧ a.day ≤ b.day)))) := by
  obtain ⟨ya, ma, da⟩ := a
  obtain ⟨yb, mb, db⟩ := b
  simp [ymdLeB, ymdLtB, Ymd.mk.injEq]
  omega

/-- Arithmetic characterization of `Ymd.okB`. -/
theorem okB_iff (x : Ymd) : x.okB = true ↔
    (-32767 ≤ x.year ∧ x.year ≤ 32767 ∧ 1 ≤ x.month ∧ x.month ≤ 12 ∧
      1 ≤ x.day ∧ (x.day : Int) ≤ monthLengthI x.year (x.month : Int)) := by
  simp [Ymd.okB, and_assoc]

/-! Section: Month arithmetic -/

/-- `ymd + months` in closed floor-division form. -/
theorem ymdAddMonths_eq (x : Ymd) (k : Int) :
    ymdAddMonths x k =
      ⟨x.year + ((x.month : Int) - 1 + k) / 12,
        (((x.month : Int) - 1 + k) % 12 + 1).toNat, x.day⟩ := by
  unfold ymdAddMonths
  rw [tdiv_trick12]
  have h : ((x.month : Int) - 1 + k) - (((x.month : Int) - 1 + k) / 12) * 12 + 1
      = ((x.month : Int) - 1 + k) % 12 + 1 := by omega
  rw [h]

/-- Month addition leaves the day unchanged. -/
theorem ymdAddMonths_day (x : Ymd) (k : Int) : (ymdAddMonths x k).day = x.day := rfl

/-- Month addition produces a month in `[1, 12]`. -/
theorem ymdAddMonths_month_range (x : Ymd) (k : Int) :
    1 ≤ (ymdAddMonths x k).month ∧ (ymdAddMonths x k).month ≤ 12 := by
  rw [ymdAddMonths_eq]
  simp only
  omega

/-- Month addition shifts `monthIndex` by exactly the added amount. -/
theorem ymdAddMonths_mi (x : Ymd) (k : Int) :
    monthIndex (ymdAddMonths x k) = monthIndex x + k := by
  rw [ymdAddMonths_eq]
  simp only [monthIndex]
  omega

/-- Month addition is additive. -/
theorem ymdAddMonths_add (x : Ymd) (a b : Int) :
    ymdAddMonths (ymdAddMonths x a) b = ymdAddMonths x (a + b) := by
  simp only [ymdAddMonths_eq, Ymd.mk.injEq]
  refine ⟨by omega, by omega, trivial⟩

/-- Adding zero months to a well-formed month is the identity. -/
theorem ymdAddMonths_zero (x : Ymd) (hx : 1 ≤ x.month ∧ x.month ≤ 12) :
    ymdAddMonths x 0 = x := by
  obtain ⟨y, m, d⟩ := x
  simp only [ymdAddMonths_eq, Ymd.mk.injEq]
  simp only at hx
  refine ⟨by omega, by omega, trivial⟩

/-! Section: Lexicographic order against `monthIndex` -/

/-- A lexicographic comparison forces the month indexes into the same
order (months must be in range). -/
theorem mi_le_of_leB (a b : Ymd) (hma : 1 ≤ a.month ∧ a.month ≤ 12)
    (hmb : 1 ≤ b.month ∧ b.month ≤ 12) (h : ymdLeB a b = true) :
    monthIndex a ≤ monthIndex b := by
  rw [ymdLeB_iff] at h
  simp only [monthIndex]
  omega

/-- A failed lexicographic comparison forces the reverse month index
order. -/
theorem mi_le_of_leB_false (a b : Ymd) (hma : 1 ≤ a.month ∧ a.month ≤ 12)
    (hmb : 1 ≤ b.month ∧ b.month ≤ 12) (h : ymdLeB a b = false) :
    monthIndex b ≤ monthIndex a := by
  have h2 : ¬ (ymdLeB a b = true) := by simp [h]
  rw [ymdLeB_iff] at h2
  push_neg at h2
  simp only [monthIndex]
  omega

/-- Strictly smaller month index refutes the lexicographic comparison. -/
theorem not_leB_of_mi_lt (a b : Ymd) (hma : 1 ≤ a.month ∧ a.month ≤ 12)
    (hmb : 1 ≤ b.month ∧ b.month ≤ 12) (h : monthIndex b < monthIndex a) :
    ymdLeB a b = false := by
  cases hb2 : ymdLeB a b with
  | false => rfl
  | true =>
      exfalso
      rw [ymdLeB_iff] at hb2
      simp only [monthIndex] at h
      omega

/-- With equal days and months in range, the month index order gives the
lexicographic order. -/
theorem leB_of_mi_le (a b : Ymd) (hd : a.day = b.day)
    (hma : 1 ≤ a.month ∧ a.month ≤ 12) (hmb : 1 ≤ b.month ∧ b.month ≤ 12)
    (h : monthIndex a ≤ monthIndex b) : ymdLeB a b = true := by
  rw [ymdLeB_iff]
  simp only [monthIndex] at h
  omega

/-- A strict lexicographic comparison is in particular a weak one. -/
theorem leB_of_ltB (a b : Ymd) (h : ymdLtB a b = true) : ymdLeB a b = true := by
  simp [ymdLeB, h]

/-! Section: The periodic schedule: reset loop and emission -/

/-- Stepping one period back from `termination - months*k` lands on
`termination - months*(k+1)`. -/
theorem termStep_succ (term : Ymd) (months : Int) (k : Nat) :
    ymdAddMonths (termStep term months k) (-months) = termStep term months (k + 1) := by
  rw [termStep, termStep, ymdAddMonths_add]
  congr 1
  push_cast
  ring

/-- Stepping one period forward from `termination - months*(k+1)` lands on
`termination - months*k`. -/
theorem termStep_pred (term : Ymd) (months : Int) (k : Nat) :
    ymdAddMonths (termStep term months (k + 1)) months = termStep term months k := by
  rw [termStep, termStep, ymdAddMonths_add]
  congr 1
  push_cast
  ring

/-- Zero period steps back from termination is termination itself. -/
theorem termStep_zero (term : Ymd) (months : Int)
    (hmt : 1 ≤ term.month ∧ term.month ≤ 12) : termStep term months 0 = term := by
  rw [termStep]
  have h : -(months * ((0 : Nat) : Int)) = 0 := by push_cast; ring
  rw [h]
  exact ymdAddMonths_zero term hmt

/-- With positive period and enough fuel, the reset loop runs until its
condition `current - months >= effective` fails. -/
theorem resetGo_exit (eff : Ymd) (months : Int) (hm : 1 ≤ months)
    (hme : 1 ≤ eff.month ∧ eff.month ≤ 12) :
    ∀ (fuel : Nat) (c : Ymd), monthIndex c - monthIndex eff < (fuel : Int) →
      ymdLeB eff (ymdAddMonths (resetGo eff months fuel c) (-months)) = false := by
  intro fuel
  induction fuel with
  | zero =>
      intro c h
      simp only [resetGo]
      apply not_leB_of_mi_lt _ _ hme (ymdAddMonths_month_range c (-months))
      rw [ymdAddMonths_mi]
      simp only [Nat.cast_zero] at h
      omega
  | succ n ih =>
      intro c h
      rw [resetGo]
      split
      · rename_i hcond
        apply ih
        have h1 := ymdAddMonths_mi c (-months)
        have h2 := mi_le_of_leB _ _ hme (ymdAddMonths_month_range c (-months)) hcond
        push_cast at h ⊢
        omega
      · rename_i hcond
        simp only [Bool.not_eq_true] at hcond
        exact hcond

/-- The reset loop result is of the form `current - months*k`, and unless
it did nothing it still satisfies `effective <= result`. -/
theorem resetGo_reach (eff : Ymd) (months : Int) :
    ∀ (fuel : Nat) (c : Ymd), ∃ k : Nat,
      (k = 0 ∧ resetGo eff months fuel c = c) ∨
      (1 ≤ k ∧ resetGo eff months fuel c = ymdAddMonths c (-(months * (k : Int))) ∧
        ymdLeB eff (resetGo eff months fuel c) = true) := by
  intro fuel
  induction fuel with
  | zero => exact fun c => ⟨0, Or.inl ⟨rfl, rfl⟩⟩
  | succ n ih =>
      intro c
      by_cases hcond : ymdLeB eff (ymdAddMonths c (-months)) = true
      · obtain ⟨k, hk⟩ := ih (ymdAddMonths c (-months))
        have hstep : resetGo eff months (n + 1) c
            = resetGo eff months n (ymdAddMonths c (-months)) := by
          rw [resetGo, if_pos hcond]
        rcases hk with ⟨hk0, hkeq⟩ | ⟨hk1, hkeq, hkle⟩
        · refine ⟨1, Or.inr ⟨le_refl 1, ?_, ?_⟩⟩
          · rw [hstep, hkeq]
            congr 1
            push_cast
            ring
          · rw [hstep, hkeq]
            exact hcond
        · refine ⟨k + 1, Or.inr ⟨by omega, ?_, ?_⟩⟩
          · rw [hstep, hkeq, ymdAddMonths_add]
            congr 1
            push_cast
            ring
          · rw [hstep]
            exact hkle
      · refine ⟨0, Or.inl ⟨rfl, ?_⟩⟩
        rw [resetGo, if_neg hcond]

/-- Fully fueled emission from `termination - months*j` produces exactly
the ascending list ending at `termination`. -/
theorem emitGo_spec (term : Ymd) (months : Int) (hm : 1 ≤ months)
    (hmt : 1 ≤ term.month ∧ term.month ≤ 12) :
    ∀ (j n : Nat), j + 2 ≤ n →
      emitGo term months n (termStep term months j) =
        (List.range (j + 1)).map (fun i => termStep term months (j - i)) := by
  intro j
  induction j with
  | zero =>
      intro n hn
      obtain ⟨n2, rfl⟩ : ∃ n2, n = n2 + 1 + 1 := ⟨n - 2, by omega⟩
      have hcond : ymdLeB (termStep term months 0) term = true := by
        apply leB_of_mi_le _ _ (ymdAddMonths_day _ _)
          (ymdAddMonths_month_range _ _) hmt
        rw [ymdAddMonths_mi]
        push_cast
        omega
      have hnext : ymdAddMonths (termStep term months 0) months
          = ymdAddMonths term months := by
        rw [termStep, ymdAddMonths_add]
        congr 1
        push_cast
        ring
      have hcond2 : ymdLeB (ymdAddMonths term months) term = false := by
        apply not_leB_of_mi_lt _ _ (ymdAddMonths_month_range term months) hmt
        rw [ymdAddMonths_mi]
        omega
      rw [emitGo, if_pos hcond, hnext, emitGo, if_neg (by simp [hcond2])]
      simp
  | succ j' ih =>
      intro n hn
      obtain ⟨n1, rfl⟩ : ∃ n1, n = n1 + 1 := ⟨n - 1, by omega⟩
      have hmul : (0 : Int) ≤ months * ((j' + 1 : Nat) : Int) :=
        mul_nonneg (by omega) (by positivity)
      have hcond : ymdLeB (termStep term months (j' + 1)) term = true := by
        apply leB_of_mi_le _ _ (ymdAddMonths_day _ _)
          (ymdAddMonths_month_range _ _) hmt
        rw [ymdAddMonths_mi]
        omega
      have htail : ((fun i => termStep term months (j' + 1 - i)) ∘ fun i => i + 1)
          = fun i => termStep term months (j' - i) := by
        funext i
        simp only [Function.comp_apply]
        congr 1
        omega
      rw [emitGo, if_pos hcond, termStep_pred, ih n1 (by omega)]
      conv_rhs => rw [List.range_succ_eq_map, List.map_cons, List.map_map]
      rw [htail, Nat.sub_zero]

/-! Section: Claim C10: termination of construction -/

/-- With a zero period the reset loop spins in place forever on the
boundary configuration. -/
theorem resetGo_fix_zero :
    ∀ n, resetGo ⟨2023, 1, 2⟩ 0 n ⟨2023, 1, 2⟩ = ⟨2023, 1, 2⟩ := by
  intro n
  induction n with
  | zero => rfl
  | succ n ih =>
      rw [resetGo]
      have hstep : ymdAddMonths (⟨2023, 1, 2⟩ : Ymd) (-(0 : Int)) = ⟨2023, 1, 2⟩ := by decide
      rw [hstep, if_pos (by decide), ih]

/-- Claim C10 (code bug): `valid()` accepts the boundary configuration
`effective = termination = 2023-01-02, months = 0`, but the constructor's
`reset()` loop condition `current - 0 months >= effective` is permanently
true, so `reset()` never exits: construction does not terminate on an
accepted configuration. -/
theorem periodic_reset_diverges_at_zero_months :
    periodic_validB ⟨2023, 1, 2⟩ ⟨2023, 1, 2⟩ 0 = true ∧
    ¬ resetTerminates ⟨2023, 1, 2⟩ 0 ⟨2023, 1, 2⟩ := by
  refine ⟨by decide, ?_⟩
  rintro ⟨n, hn⟩
  rw [resetGo_fix_zero n] at hn
  revert hn
  decide

/-! Section: Claim C2: invalid configurations -/

/-- Claim C2 (amended): a configuration whose positive period disagrees
with the direction from effective to termination is rejected by `valid()`,
but iterating the generator still yields exactly the one-element sequence
`[termination]` (because `current` starts at `termination` and
`current <= termination` holds once) — not an empty sequence; iteration
terminates and raises nothing.  The `monthIndex` bound keeps the single
overstep `termination + months` inside chrono's representable year range,
so the unbounded-year model agrees with the `short`-year implementation. -/
theorem periodic_invalid_singleton (eff term : Ymd) (months : Int)
    (hterm : Ymd.okB term = true) (hm : 1 ≤ months)
    (hlt : ymdLtB eff term = false)
    (hrange : monthIndex term + months ≤ monthIndex ymaxDate) :
    periodic_validB eff term months = false ∧ schedule eff term months = [term] := by
  have hmt : 1 ≤ term.month ∧ term.month ≤ 12 := by
    rw [okB_iff] at hterm
    exact ⟨hterm.2.2.1, hterm.2.2.2.1⟩
  have hvalid : periodic_validB eff term months = false := by
    unfold periodic_validB
    split
    · simp only [decide_eq_false_iff_not]
      omega
    · rw [hlt]
      have h1 : decide (0 < months) = true := by simp; omega
      rw [h1]
      rfl
  have hinit : periodic_init eff term months = term := by
    unfold periodic_init
    rw [hvalid]
    simp
  have h0 : termStep term months 0 = term := termStep_zero term months hmt
  refine ⟨hvalid, ?_⟩
  unfold schedule
  rw [hinit]
  have hfuel : (monthIndex term - monthIndex term).toNat + 2 = 2 := by omega
  have hspec := emitGo_spec term months hm hmt 0 2 (by omega)
  rw [h0] at hspec
  rw [hfuel, hspec]
  simp [h0]

/-- Counterexample to claim C2 as stated: the invalid configuration
`(2025-01-02, 2023-01-02, +12 months)` yields the one-element sequence
`[2023-01-02]`, not an empty sequence. -/
theorem periodic_invalid_not_empty_cex :
    schedule ⟨2025, 1, 2⟩ ⟨2023, 1, 2⟩ 12 = [⟨2023, 1, 2⟩] ∧
    schedule ⟨2025, 1, 2⟩ ⟨2023, 1, 2⟩ 12 ≠ [] := by
  refine ⟨by decide, by decide⟩

/-- Witness for the amended claim C2 at the configuration from the spec. -/
theorem periodic_invalid_singleton_witness :
    periodic_validB ⟨2025, 1, 2⟩ ⟨2023, 1, 2⟩ 12 = false ∧
    schedule ⟨2025, 1, 2⟩ ⟨2023, 1, 2⟩ 12 = [⟨2023, 1, 2⟩] :=
  periodic_invalid_singleton ⟨2025, 1, 2⟩ ⟨2023, 1, 2⟩ 12 (by decide) (by omega)
    (by decide) (by decide)

/-! Section: Claim C1: schedule anchoring -/

/-- Claim C1 (amended to ascending configurations, `months >= 1`): the
schedule is nonempty, its last element is exactly `termination`, and its
first element is the earliest date of the form `termination - k*months`
that is lexicographically `>= effective`; moreover the two concrete
schedules from the spec evaluate exactly as stated.  The two `monthIndex`
bounds keep every intermediate date of the backward construction inside
chrono's representable year range, so the unbounded-year model agrees with
the `short`-year implementation. -/
theorem periodic_schedule_anchoring :
    (∀ (eff term : Ymd) (months : Int), Ymd.okB eff = true → Ymd.okB term = true →
      1 ≤ months → ymdLtB eff term = true →
      monthIndex yminDate ≤ monthIndex eff - months →
      monthIndex term + months ≤ monthIndex ymaxDate →
      schedule eff term months ≠ [] ∧
      (schedule eff term months).getLast? = some term ∧
      ∃ k : Nat, (schedule eff term months).head? = some (termStep term months k) ∧
        ymdLeB eff (termStep term months k) = true ∧
        ∀ j : Nat, ymdLeB eff (termStep term months j) = true →
          ymdLeB (termStep term months k) (termStep term months j) = true) ∧
    schedule ⟨2023, 1, 2⟩ ⟨2025, 1, 2⟩ 12 = [⟨2023, 1, 2⟩, ⟨2024, 1, 2⟩, ⟨2025, 1, 2⟩] ∧
    schedule ⟨2023, 1, 3⟩ ⟨2025, 1, 2⟩ 12 = [⟨2024, 1, 2⟩, ⟨2025, 1, 2⟩] := by
  refine ⟨?_, by decide, by decide⟩
  intro eff term months hoe hot hm hlt hrmin hrmax
  rw [okB_iff] at hoe hot
  have hre : 1 ≤ eff.month ∧ eff.month ≤ 12 := ⟨hoe.2.2.1, hoe.2.2.2.1⟩
  have hrt : 1 ≤ term.month ∧ term.month ≤ 12 := ⟨hot.2.2.1, hot.2.2.2.1⟩
  have hne : eff ≠ term := by
    intro heq
    rw [heq, ymdLtB_iff] at hlt
    omega
  have hvalid : periodic_validB eff term months = true := by
    unfold periodic_validB
    rw [if_neg hne, hlt]
    have h1 : decide (0 < months) = true := by simp; omega
    rw [h1]
    rfl
  have hcr : periodic_init eff term months
      = resetGo eff months (periodic_resetFuel eff term) term := by
    unfold periodic_init
    rw [hvalid]
    simp
  have hmieff_le : monthIndex eff ≤ monthIndex term :=
    mi_le_of_leB _ _ hre hrt (leB_of_ltB _ _ hlt)
  have hfuel : monthIndex term - monthIndex eff < ((periodic_resetFuel eff term : Nat) : Int) := by
    unfold periodic_resetFuel
    omega
  have hexit : ymdLeB eff (ymdAddMonths (periodic_init eff term months) (-months)) = false := by
    rw [hcr]
    exact resetGo_exit eff months hm hre _ term hfuel
  obtain ⟨k, hk⟩ := resetGo_reach eff months (periodic_resetFuel eff term) term
  have hck : periodic_init eff term months = termStep term months k ∧
      ymdLeB eff (periodic_init eff term months) = true := by
    rcases hk with ⟨hk0, hres⟩ | ⟨hk1, hres, hle⟩
    · constructor
      · rw [hcr, hres, hk0, termStep_zero term months hrt]
      · rw [hcr, hres]
        exact leB_of_ltB _ _ hlt
    · constructor
      · rw [hcr, hres]
        rfl
      · rw [hcr]
        exact hle
  obtain ⟨hcke, hcle⟩ := hck
  have hmic : monthIndex (periodic_init eff term months)
      = monthIndex term - months * (k : Int) := by
    rw [hcke]
    simp only [termStep, ymdAddMonths_mi]
    ring
  have hkmul : (k : Int) ≤ months * (k : Int) :=
    le_mul_of_one_le_left (by positivity) hm
  have hsch : schedule eff term months
      = (List.range (k + 1)).map (fun i => termStep term months (k - i)) := by
    unfold schedule
    rw [hcke]
    apply emitGo_spec term months hm hrt
    rw [← hcke]
    omega
  have hexitk : ymdLeB eff (termStep term months (k + 1)) = false := by
    rw [← termStep_succ, ← hcke]
    exact hexit
  refine ⟨?_, ?_, k, ?_, ?_, ?_⟩
  · rw [hsch]
    simp
  · rw [hsch, List.range_succ, List.map_append]
    simp [termStep_zero term months hrt]
  · rw [hsch, List.range_succ_eq_map]
    simp
  · rw [← hcke]
    exact hcle
  · intro j hj
    have hmj := mi_le_of_leB _ _ hre (ymdAddMonths_month_range _ _) hj
    rw [ymdAddMonths_mi] at hmj
    by_cases hjk : j ≤ k
    · refine leB_of_mi_le _ _ ?_ (ymdAddMonths_month_range _ _) (ymdAddMonths_month_range _ _) ?_
      · rfl
      simp only [termStep, ymdAddMonths_mi]
      have hmul2 : months * (j : Int) ≤ months * (k : Int) :=
        mul_le_mul_of_nonneg_left (by exact_mod_cast hjk) (by omega)
      omega
    · exfalso
      rcases Nat.lt_or_ge j (k + 2) with hj2 | hj2
      · have hjeq : j = k + 1 := by omega
        rw [hjeq] at hj
        simp [hj] at hexitk
      · have hmkp1 := mi_le_of_leB_false _ _ hre (ymdAddMonths_month_range _ _) hexitk
        rw [ymdAddMonths_mi] at hmkp1
        have hmul2 : months * ((k : Int) + 2) ≤ months * (j : Int) :=
          mul_le_mul_of_nonneg_left (by exact_mod_cast hj2) (by omega)
        have hmexp : months * ((k : Int) + 2) = months * (k : Int) + 2 * months := by ring
        have hmexp2 : months * ((k : Int) + 1) = months * (k : Int) + months := by ring
        push_cast at hmj hmkp1 hmul2
        omega

/-- Counterexample to claim C1 as stated: the configuration
`(2025-01-02, 2023-01-02, -12 months)` is accepted by `valid()`, yet the
first emitted date is `2023-01-02`, which is lexicographically smaller
than the effective date — not the earliest generated date `>= effective`
required by the claim. -/
theorem periodic_schedule_anchoring_cex :
    periodic_validB ⟨2025, 1, 2⟩ ⟨2023, 1, 2⟩ (-12) = true ∧
    scheduleHead ⟨2025, 1, 2⟩ ⟨2023, 1, 2⟩ (-12) = some ⟨2023, 1, 2⟩ ∧
    ymdLeB ⟨2025, 1, 2⟩ ⟨2023, 1, 2⟩ = false := by
  refine ⟨by decide, by decide, by decide⟩

/-- Witness for the amended claim C1 at the spec's first example
configuration. -/
theorem periodic_schedule_anchoring_witness :
    schedule ⟨2023, 1, 2⟩ ⟨2025, 1, 2⟩ 12 ≠ [] ∧
    (schedule ⟨2023, 1, 2⟩ ⟨2025, 1, 2⟩ 12).getLast? = some ⟨2025, 1, 2⟩ ∧
    ∃ k : Nat, (schedule ⟨2023, 1, 2⟩ ⟨2025, 1, 2⟩ 12).head?
        = some (termStep ⟨2025, 1, 2⟩ 12 k) ∧
      ymdLeB ⟨2023, 1, 2⟩ (termStep ⟨2025, 1, 2⟩ 12 k) = true ∧
      ∀ j : Nat, ymdLeB ⟨2023, 1, 2⟩ (termStep ⟨2025, 1, 2⟩ 12 j) = true →
        ymdLeB (termStep ⟨2025, 1, 2⟩ 12 k) (termStep ⟨2025, 1, 2⟩ 12 j) = true :=
  periodic_schedule_anchoring.1 ⟨2023, 1, 2⟩ ⟨2025, 1, 2⟩ 12 (by decide) (by decide)
    (by omega) (by decide) (by decide) (by decide)

/-! Section: Roll adjustment: scan lemmas -/

/-- Whatever the scan returns is a business day. -/
theorem adjustGo_some_business (cal : Ymd → Bool) (dir : Int) :
    ∀ (n : Nat) (x r : Ymd), adjustGo cal dir n x = some r → cal r = false := by
  intro n
  induction n with
  | zero =>
      intro x r h
      simp [adjustGo] at h
  | succ n ih =>
      intro x r h
      rw [adjustGo] at h
      by_cases hc : cal x = false
      · rw [if_pos hc] at h
        cases h
        exact hc
      · rw [if_neg hc] at h
        exact ih _ _ h

/-- If a business day is reachable in `n` steps of the scan direction, the
scan with fuel `n + 1` returns a business day. -/
theorem adjustGo_of_reach (cal : Ymd → Bool) (dir : Int) :
    ∀ (n : Nat) (x : Ymd), cal (stepIter dir n x) = false →
      ∃ r, adjustGo cal dir (n + 1) x = some r ∧ cal r = false := by
  intro n
  induction n with
  | zero =>
      intro x h
      rw [stepIter] at h
      exact ⟨x, by rw [adjustGo, if_pos h], h⟩
  | succ n ih =>
      intro x h
      by_cases hc : cal x = false
      · exact ⟨x, by rw [adjustGo, if_pos hc], hc⟩
      · rw [stepIter] at h
        obtain ⟨r, hr, hb⟩ := ih (stepDays x dir) h
        refine ⟨r, ?_, hb⟩
        rw [adjustGo, if_neg hc]
        exact hr

/-- Under the all-holiday calendar the scan never produces a value. -/
theorem adjustGo_none_of_all (dir : Int) :
    ∀ (n : Nat) (x : Ymd), adjustGo (fun _ => true) dir n x = Option.none := by
  intro n
  induction n with
  | zero => intro x; rfl
  | succ n ih =>
      intro x
      rw [adjustGo, if_neg (by simp)]
      exact ih _

/-! Section: Claim C5: adjust contract -/

/-- Claim C5: `adjust` is the identity on business days for every
convention, and — for every convention other than `none` — any date it
returns satisfies the business-day predicate `!cal`. -/
theorem adjust_idempotent_business (cal : Ymd → Bool) (x : Ymd) (conv : Roll) (fuel : Nat) :
    (cal x = false → adjust cal conv fuel x = some x) ∧
    (∀ r, conv ≠ Roll.none → adjust cal conv fuel x = some r → cal r = false) := by
  constructor
  · intro h
    unfold adjust
    rw [if_pos h]
  · intro r hconv h
    unfold adjust at h
    by_cases hc : cal x = false
    · rw [if_pos hc] at h
      cases h
      exact hc
    · rw [if_neg hc] at h
      cases conv with
      | none => exact absurd rfl hconv
      | previous => exact adjustGo_some_business cal (-1) fuel x r h
      | following => exact adjustGo_some_business cal 1 fuel x r h
      | modified_following =>
          cases hgo : adjustGo cal 1 fuel (stepDays x 0) with
          | none =>
              rw [hgo] at h
              cases h
          | some f =>
              simp only [hgo] at h
              by_cases hf : f.month = x.month
              · rw [if_pos hf] at h
                cases h
                exact adjustGo_some_business cal 1 fuel _ _ hgo
              · rw [if_neg hf] at h
                exact adjustGo_some_business cal (-1) fuel x r h
      | modified_previous =>
          cases hgo : adjustGo cal (-1) fuel (stepDays x 0) with
          | none =>
              rw [hgo] at h
              cases h
          | some p =>
              simp only [hgo] at h
              by_cases hp : p.month = x.month
              · rw [if_pos hp] at h
                cases h
                exact adjustGo_some_business cal (-1) fuel _ _ hgo
              · rw [if_neg hp] at h
                exact adjustGo_some_business cal 1 fuel x r h

/-- Witness for claim C5: 2023-01-03 (a Tuesday) is returned unchanged by
`modified_following`, and the date returned by `following` from Saturday
2023-01-07 (namely Monday 2023-01-09) is a business day. -/
theorem adjust_idempotent_business_witness :
    adjust calendars_weekday Roll.modified_following 3 ⟨2023, 1, 3⟩ = some ⟨2023, 1, 3⟩ ∧
    calendars_weekday ⟨2023, 1, 9⟩ = false :=
  ⟨(adjust_idempotent_business calendars_weekday ⟨2023, 1, 3⟩ Roll.modified_following 3).1
      (by decide),
   (adjust_idempotent_business calendars_weekday ⟨2023, 1, 7⟩ Roll.following 5).2
      ⟨2023, 1, 9⟩ (by decide) (by decide)⟩

/-! Section: Claim C9: termination of the roll adjuster -/

/-- Claim C9 (amended): the `previous`/`following` recursion terminates
precisely by reaching a business day in its scan direction — if `!cal`
holds after `n` steps in the direction, depth `n + 1` suffices and the
result is a business day.  The code has no maximum-step bound and raises
no error: with an all-holiday calendar the recursion never returns (see
the counterexample). -/
theorem adjust_termination_direction (cal : Ymd → Bool) (x : Ymd) (n : Nat) :
    (cal (stepIter 1 n x) = false →
      ∃ r, adjustGo cal 1 (n + 1) x = some r ∧ cal r = false) ∧
    (cal (stepIter (-1) n x) = false →
      ∃ r, adjustGo cal (-1) (n + 1) x = some r ∧ cal r = false) :=
  ⟨adjustGo_of_reach cal 1 n x, adjustGo_of_reach cal (-1) n x⟩

/-- Counterexample to claim C9 as stated: with the all-holiday calendar
the `following` recursion produces no result at any depth — it recurses
forever instead of stopping at a maximum-step bound with an explicit
error (no such bound or error exists in the code). -/
theorem adjust_all_holiday_diverges_cex :
    ¬ adjustSome (fun _ => true) 1 ⟨2023, 1, 2⟩ := by
  rintro ⟨n, hn⟩
  exact hn (adjustGo_none_of_all 1 n ⟨2023, 1, 2⟩)

/-- Witness for the amended claim C9: from Saturday 2023-01-07 a business
day is reached in two forward steps, so the scan returns one. -/
theorem adjust_termination_direction_witness :
    ∃ r, adjustGo calendars_weekday 1 3 ⟨2023, 1, 7⟩ = some r ∧
      calendars_weekday r = false :=
  (adjust_termination_direction calendars_weekday ⟨2023, 1, 7⟩ 2).1 (by decide)

/-! Section: Claim C4: the 30/360 rule -/

/-- Claim C4: the source's 30/360 day count implements exactly the spec's
rule — replace d0 by 30 when it is 31, then replace d1 by 30 when d1 is 31
and the adjusted d0 exceeds 29, and return
`(360*(y1-y0) + 30*(m1-m0) + (d1-d0))/360` years; in particular
`thirty_360(2023-01-02, 2024-01-04)` is exactly `1 + 2/360`. -/
theorem dcf_30_360_formula :
    (∀ t0 t1 : Ymd, dcf_30_360 t0 t1 = thirty_360_spec t0 t1) ∧
    dcf_30_360 ⟨2023, 1, 2⟩ ⟨2024, 1, 4⟩ = 1 + 2 / 360 := by
  constructor
  · intro t0 t1
    unfold dcf_30_360 thirty_360_spec
    split_ifs <;> push_cast <;> ring
  · norm_num [dcf_30_360]

/-! Section: Claim C7: date construction performs no validation -/

/-- Arithmetic characterization of the section-3 field invariant. -/
theorem validFieldsB_iff (y : Int) (m d : Nat) :
    validFieldsB y m d = true ↔
      (1 ≤ m ∧ m ≤ 12 ∧ 1 ≤ d ∧ (d : Int) ≤ monthLengthI y (m : Int)) := by
  simp [validFieldsB, and_assoc]

/-- Counterexample to claim C7 as stated: `make_ymd(2023, 2, 30)`
(February 30) does not fail — no error exists anywhere on this code path —
it returns a `ymd` value carrying exactly those fields, whose `ok()` is
false. -/
theorem make_ymd_no_validation_cex :
    make_ymd 2023 2 30 = ⟨2023, 2, 30⟩ ∧ Ymd.okB (make_ymd 2023 2 30) = false := by
  refine ⟨by decide, by decide⟩

/-- Claim C7 (amended): `make_ymd` performs no validation and cannot fail.
For arguments within the storage ranges it returns the `ymd` with exactly
the given fields (no clamping); when the field combination violates the
invariant the result is a value whose `ok()` is false (chrono's poison
convention), not an error. -/
theorem make_ymd_no_validation (y : Int) (m d : Nat)
    (hy1 : -32767 ≤ y) (hy2 : y ≤ 32767) (hm : m < 256) (hd : d < 256) :
    make_ymd y m d = ⟨y, m, d⟩ ∧
    (validFieldsB y m d = false → Ymd.okB (make_ymd y m d) = false) := by
  have hfields : make_ymd y m d = ⟨y, m, d⟩ := by
    unfold make_ymd truncYear
    simp only [Ymd.mk.injEq]
    refine ⟨by omega, by omega, by omega⟩
  refine ⟨hfields, ?_⟩
  intro hinv
  rw [hfields]
  cases hok : Ymd.okB ⟨y, m, d⟩ with
  | false => rfl
  | true =>
      exfalso
      rw [okB_iff] at hok
      have hvt := (validFieldsB_iff y m d).2
        ⟨hok.2.2.1, hok.2.2.2.1, hok.2.2.2.2.1, hok.2.2.2.2.2⟩
      rw [hinv] at hvt
      cases hvt

/-- Witness for the amended claim C7 at April 31. -/
theorem make_ymd_no_validation_witness :
    make_ymd 2023 4 31 = ⟨2023, 4, 31⟩ ∧ Ymd.okB (make_ymd 2023 4 31) = false :=
  ⟨(make_ymd_no_validation 2023 4 31 (by omega) (by omega) (by omega) (by omega)).1,
   (make_ymd_no_validation 2023 4 31 (by omega) (by omega) (by omega) (by omega)).2
      (by decide)⟩

/-! Section: Serial conversion: normal forms -/

/-- The era of `days_from_civil` is the floor division of the shifted year
by 400. -/
theorem dfc_era_eq (y m : Int) : dfc_era y m = dfc_y1 y m / 400 := by
  unfold dfc_era
  exact tdiv_trick400 _

/-- The year of era is the residue of the shifted year mod 400. -/
theorem dfc_yoe_eq (y m : Int) : dfc_yoe y m = dfc_y1 y m % 400 := by
  unfold dfc_yoe
  rw [dfc_era_eq]
  omega

/-- The year of era lies in `[0, 399]`. -/
theorem dfc_yoe_range (y m : Int) : 0 ≤ dfc_yoe y m ∧ dfc_yoe y m ≤ 399 := by
  rw [dfc_yoe_eq]
  omega

/-- The shifted month lies in `[0, 11]` for months in `[1, 12]`. -/
theorem dfc_mp_range (m : Int) (hm1 : 1 ≤ m) (hm2 : m ≤ 12) :
    0 ≤ dfc_mp m ∧ dfc_mp m ≤ 11 := by
  unfold dfc_mp
  split <;> omega

/-- Day-of-year in Euclidean form. -/
theorem dfc_doy_eq (m d : Int) (hm1 : 1 ≤ m) (hm2 : m ≤ 12) :
    dfc_doy m d = (153 * dfc_mp m + 2) / 5 + d - 1 := by
  have hmp := dfc_mp_range m hm1 hm2
  unfold dfc_doy
  rw [tdiv_nn _ _ (by omega) (by omega)]

/-- Day-of-era in Euclidean form. -/
theorem dfc_doe_eq (y m d : Int) :
    dfc_doe y m d
      = dfc_yoe y m * 365 + dfc_yoe y m / 4 - dfc_yoe y m / 100 + dfc_doy m d := by
  have h := dfc_yoe_range y m
  unfold dfc_doe
  rw [tdiv_nn _ _ (by omega) (by omega), tdiv_nn _ _ (by omega) (by omega)]

/-- Era/day-of-era decomposition of `civil_from_days` is unique. -/
theorem cfd_era_doe_eq (z era doe : Int) (h : z + 719468 = 146097 * era + doe)
    (h2 : 0 ≤ doe) (h3 : doe ≤ 146096) :
    cfd_era z = era ∧ cfd_doe z = doe := by
  have he : cfd_era z = era := by
    unfold cfd_era
    rw [tdiv_trick146097]
    omega
  refine ⟨he, ?_⟩
  unfold cfd_doe
  rw [he]
  omega

set_option maxHeartbeats 4000000 in
/-- Hinnant's year-of-era recovery formula inverts the day-of-era
construction on every day of the 400-year era (the `if` is the indicator
of the long, Feb-29-carrying March-based year). -/
theorem yoe_recovery (yoe doy doe : Int) (h0 : 0 ≤ yoe) (h1 : yoe ≤ 399) (h2 : 0 ≤ doy)
    (h3 : doy ≤ 364 + (if (yoe + 1) % 4 = 0 ∧ ((yoe + 1) % 100 ≠ 0 ∨ yoe + 1 = 400) then 1 else 0))
    (hdoe : doe = yoe * 365 + yoe / 4 - yoe / 100 + doy) :
    (doe - doe / 1460 + doe / 36524 - doe / 146096) / 365 = yoe ∧ 0 ≤ doe ∧ doe ≤ 146096 := by
  interval_cases yoe <;> omega

/-- Given the era/year-of-era/day-of-year decomposition of a serial day,
`civil_from_days` recovers each component. -/
theorem cfd_fields_eq (z era yoe doy : Int)
    (hz : z + 719468 = 146097 * era + (yoe * 365 + yoe / 4 - yoe / 100 + doy))
    (h0 : 0 ≤ yoe) (h1 : yoe ≤ 399) (h2 : 0 ≤ doy)
    (h3 : doy ≤ 364 + (if (yoe + 1) % 4 = 0 ∧ ((yoe + 1) % 100 ≠ 0 ∨ yoe + 1 = 400) then 1 else 0)) :
    cfd_era z = era ∧ cfd_yoe z = yoe ∧ cfd_doy z = doy := by
  obtain ⟨hrec, hdnn, hdub⟩ := yoe_recovery yoe doy _ h0 h1 h2 h3 rfl
  obtain ⟨he, hd⟩ := cfd_era_doe_eq z era _ hz hdnn hdub
  have hy : cfd_yoe z = yoe := by
    unfold cfd_yoe
    rw [hd]
    rw [tdiv_nn _ 1460 hdnn (by omega), tdiv_nn _ 36524 hdnn (by omega),
      tdiv_nn _ 146096 hdnn (by omega), tdiv_nn _ 365 (by omega) (by omega)]
    exact hrec
  refine ⟨he, hy, ?_⟩
  unfold cfd_doy
  rw [hd, hy, tdiv_nn _ 4 h0 (by omega), tdiv_nn _ 100 h0 (by omega)]
  omega

/-- The month/day extraction of `civil_from_days` inverts the day-of-year
construction for every shifted month and admissible day. -/
theorem mp_recovery (mp d doy : Int) (h0 : 0 ≤ mp) (h1 : mp ≤ 11) (hd : 1 ≤ d)
    (hdm : d ≤ (if mp = 11 then 29 else if mp = 1 ∨ mp = 3 ∨ mp = 6 ∨ mp = 8 then 30 else 31))
    (hdoy : doy = (153 * mp + 2) / 5 + d - 1) :
    (5 * doy + 2) / 153 = mp ∧ doy - (153 * mp + 2) / 5 + 1 = d ∧ 0 ≤ doy ∧ doy ≤ 365 := by
  interval_cases mp <;> omega

/-! Section: Round trip: civil date to serial and back -/

/-- Round trip at field level: for a valid Gregorian date with year in
chrono's representable range, `civil_from_days` inverts
`days_from_civil`. -/
theorem civil_days_inv (y : Int) (m d : Nat)
    (hm1 : 1 ≤ m) (hm2 : m ≤ 12) (hy1 : -32767 ≤ y) (hy2 : y ≤ 32767)
    (hd1 : 1 ≤ d) (hd2 : (d : Int) ≤ monthLengthI y (m : Int)) :
    civil_from_days (days_from_civil y (m : Int) (d : Int)) = ⟨y, m, d⟩ := by
  have hm1I : (1 : Int) ≤ (m : Int) := by exact_mod_cast hm1
  have hm2I : (m : Int) ≤ 12 := by exact_mod_cast hm2
  have hd1I : (1 : Int) ≤ (d : Int) := by exact_mod_cast hd1
  have hmp := dfc_mp_range (m : Int) hm1I hm2I
  have hyoer := dfc_yoe_range y (m : Int)
  have hyoe_eq := dfc_yoe_eq y (m : Int)
  have hdoy_eq := dfc_doy_eq (m : Int) (d : Int) hm1I hm2I
  have hdlt31 : (d : Int) ≤ 31 := by
    have hub : monthLengthI y (m : Int) ≤ 31 := by
      unfold monthLengthI
      split_ifs <;> omega
    omega
  have hdoy_nn : 0 ≤ dfc_doy (m : Int) (d : Int) := by
    rw [hdoy_eq]
    omega
  have hz_eq : days_from_civil y (m : Int) (d : Int) + 719468
      = 146097 * (dfc_y1 y (m : Int) / 400)
        + (dfc_yoe y (m : Int) * 365 + dfc_yoe y (m : Int) / 4
            - dfc_yoe y (m : Int) / 100 + dfc_doy (m : Int) (d : Int)) := by
    unfold days_from_civil
    rw [dfc_era_eq, dfc_doe_eq]
    omega
  have h3 : dfc_doy (m : Int) (d : Int) ≤ 364 +
      (if (dfc_yoe y (m : Int) + 1) % 4 = 0 ∧
          ((dfc_yoe y (m : Int) + 1) % 100 ≠ 0 ∨ dfc_yoe y (m : Int) + 1 = 400)
        then 1 else 0) := by
    by_cases hm2e : (m : Int) = 2
    · have hmp11 : dfc_mp (m : Int) = 11 := by
        unfold dfc_mp
        rw [if_neg (by omega)]
        omega
      have hy1e : dfc_y1 y (m : Int) = y - 1 := by
        unfold dfc_y1
        rw [if_pos (by omega)]
      unfold monthLengthI at hd2
      rw [if_pos hm2e] at hd2
      rw [hdoy_eq, hmp11, hyoe_eq, hy1e]
      split_ifs at hd2 ⊢ <;> omega
    · have hmp10 : dfc_mp (m : Int) ≤ 10 := by
        unfold dfc_mp
        split <;> omega
      rw [hdoy_eq]
      have hmdoy : (153 * dfc_mp (m : Int) + 2) / 5 ≤ 306 := by omega
      split_ifs <;> omega
  obtain ⟨hera, hyoeZ, hdoyZ⟩ := cfd_fields_eq (days_from_civil y (m : Int) (d : Int))
    (dfc_y1 y (m : Int) / 400) (dfc_yoe y (m : Int)) (dfc_doy (m : Int) (d : Int))
    hz_eq hyoer.1 hyoer.2 hdoy_nn h3
  have hdm2 : (d : Int) ≤ (if dfc_mp (m : Int) = 11 then 29
      else if dfc_mp (m : Int) = 1 ∨ dfc_mp (m : Int) = 3 ∨ dfc_mp (m : Int) = 6 ∨
        dfc_mp (m : Int) = 8 then 30 else 31) := by
    unfold dfc_mp
    unfold monthLengthI at hd2
    split_ifs at hd2 ⊢ <;> omega
  obtain ⟨hmpZ, hdZ, hdoy0, hdoy365⟩ := mp_recovery (dfc_mp (m : Int)) (d : Int)
    (dfc_doy (m : Int) (d : Int)) hmp.1 hmp.2 hd1I hdm2 hdoy_eq
  have hcmp : cfd_mp (days_from_civil y (m : Int) (d : Int)) = dfc_mp (m : Int) := by
    unfold cfd_mp
    rw [hdoyZ, tdiv_nn _ 153 (by omega) (by omega)]
    exact hmpZ
  have hcday : cfd_day (days_from_civil y (m : Int) (d : Int)) = (d : Int) := by
    unfold cfd_day
    rw [hdoyZ, hcmp, tdiv_nn _ 5 (by omega) (by omega)]
    exact hdZ
  have hcmonth : cfd_month (days_from_civil y (m : Int) (d : Int)) = (m : Int) := by
    unfold cfd_month
    rw [hcmp]
    unfold dfc_mp
    split_ifs <;> omega
  have hcyear : cfd_year (days_from_civil y (m : Int) (d : Int)) = y := by
    unfold cfd_year
    rw [hyoeZ, hera, hcmonth, hyoe_eq]
    unfold dfc_y1
    split_ifs <;> omega
  unfold civil_from_days
  rw [hcyear, hcmonth, hcday]
  have hty : truncYear y = y := by
    unfold truncYear
    omega
  rw [hty]
  simp [Ymd.mk.injEq]

/-- Round trip on `Ymd` values: `ymd(sys_days(x)) = x` for every `ok()`
date. -/
theorem from_to_serial (x : Ymd) (hx : Ymd.okB x = true) :
    civil_from_days (to_serial x) = x := by
  rw [okB_iff] at hx
  obtain ⟨y, m, d⟩ := x
  exact civil_days_inv y m d hx.2.2.1 hx.2.2.2.1 hx.1 hx.2.1 hx.2.2.2.2.1 hx.2.2.2.2.2

/-! Section: Serial successor -/

/-- Day counts in normal form: serial number as era/year-of-era/day-of-year
sum over Euclidean division. -/
theorem days_from_civil_nf (y m d : Int) (hm1 : 1 ≤ m) (hm2 : m ≤ 12) :
    days_from_civil y m d
      = 146097 * (dfc_y1 y m / 400) + (dfc_y1 y m % 400) * 365
        + (dfc_y1 y m % 400) / 4 - (dfc_y1 y m % 400) / 100
        + (153 * dfc_mp m + 2) / 5 + d - 1 - 719468 := by
  unfold days_from_civil
  rw [dfc_era_eq, dfc_doe_eq, dfc_yoe_eq, dfc_doy_eq _ _ hm1 hm2]
  omega

/-- Advancing the shifted year by one adds a common-year of days plus the
Gregorian leap indicator of the new civil year. -/
theorem sdiff_leap (t : Int) :
    146097 * ((t + 1) / 400) + ((t + 1) % 400) * 365 + ((t + 1) % 400) / 4
        - ((t + 1) % 400) / 100
      = 146097 * (t / 400) + (t % 400) * 365 + (t % 400) / 4 - (t % 400) / 100
        + 365 + (if (t + 1) % 4 = 0 ∧ ((t + 1) % 100 ≠ 0 ∨ (t + 1) % 400 = 0)
            then 1 else 0) := by
  split_ifs <;> omega

/-- Every month has at least 28 days. -/
theorem monthLengthI_ge (y m : Int) : 28 ≤ monthLengthI y m := by
  unfold monthLengthI
  split_ifs <;> omega

/-- Every month has at most 31 days. -/
theorem monthLengthI_le (y m : Int) : monthLengthI y m ≤ 31 := by
  unfold monthLengthI
  split_ifs <;> omega

/-- Field-level successor compatibility: stepping a valid date to the next
calendar day advances the serial number by one. -/
theorem serial_next_field (y m d : Int) (hm1 : 1 ≤ m) (hm2 : m ≤ 12)
    (hd1 : 1 ≤ d) (hd2 : d ≤ monthLengthI y m) :
    (if d < monthLengthI y m then days_from_civil y m (d + 1)
     else if m < 12 then days_from_civil y (m + 1) 1
     else days_from_civil (y + 1) 1 1) = days_from_civil y m d + 1 := by
  have hsd := sdiff_leap (y - 1)
  split_ifs with h1 h2
  · rw [days_from_civil_nf _ _ _ hm1 hm2, days_from_civil_nf _ _ _ hm1 hm2]
    omega
  · interval_cases m <;>
      (rw [days_from_civil_nf _ _ _ (by norm_num) (by norm_num),
          days_from_civil_nf _ _ _ (by norm_num) (by norm_num)]
       simp only [dfc_y1, dfc_mp, monthLengthI] at h1 hd2 ⊢
       norm_num at h1 hd2 ⊢
       omega)
  · have h12 : m = 12 := by omega
    subst h12
    rw [days_from_civil_nf _ _ _ (by norm_num) (by norm_num),
      days_from_civil_nf _ _ _ (by norm_num) (by norm_num)]
    simp only [dfc_y1, dfc_mp, monthLengthI] at h1 hd2 ⊢
    norm_num at h1 hd2 ⊢
    omega

/-- Successor compatibility on `Ymd` values. -/
theorem serial_nextDay (x : Ymd) (hx : Ymd.okB x = true) :
    to_serial (nextDay x) = to_serial x + 1 := by
  rw [okB_iff] at hx
  obtain ⟨y, m, d⟩ := x
  simp only at hx
  have h := serial_next_field y (m : Int) (d : Int) (by exact_mod_cast hx.2.2.1)
    (by exact_mod_cast hx.2.2.2.1) (by exact_mod_cast hx.2.2.2.2.1) hx.2.2.2.2.2
  unfold nextDay to_serial
  simp only
  split_ifs with h1 h2
  · rw [if_pos h1] at h
    push_cast
    omega
  · rw [if_neg h1, if_pos (by exact_mod_cast h2)] at h
    push_cast
    omega
  · rw [if_neg h1, if_neg (by exact_mod_cast h2)] at h
    push_cast
    omega

/-- Validity is preserved by the field-level successor except at the very
last representable date. -/
theorem ok_nextDay (x : Ymd) (hx : Ymd.okB x = true) (hne : x ≠ ymaxDate) :
    Ymd.okB (nextDay x) = true := by
  rw [okB_iff] at hx
  obtain ⟨y, m, d⟩ := x
  simp only at hx
  obtain ⟨b1, b2, b3, b4, b5, b6⟩ := hx
  have hne2 : ¬(y = 32767 ∧ m = 12 ∧ d = 31) := by
    rintro ⟨e1, e2, e3⟩
    exact hne (by rw [e1, e2, e3]; rfl)
  unfold nextDay
  dsimp only
  split_ifs with h1 h2
  · rw [okB_iff]
    dsimp only
    refine ⟨b1, b2, b3, b4, by omega, ?_⟩
    push_cast
    omega
  · rw [okB_iff]
    dsimp only
    have hg := monthLengthI_ge y ((m + 1 : Nat) : Int)
    refine ⟨b1, b2, by omega, by omega, by omega, ?_⟩
    push_cast
    push_cast at hg
    omega
  · rw [okB_iff]
    dsimp only
    have hm12 : m = 12 := by omega
    have hml : monthLengthI y ((12 : Nat) : Int) = 31 := by norm_num [monthLengthI]
    have hd31 : d = 31 := by
      rw [hm12] at h1 b6
      omega
    have hg := monthLengthI_ge (y + 1) ((1 : Nat) : Int)
    refine ⟨by omega, by omega, by omega, by omega, by omega, ?_⟩
    push_cast
    push_cast at hg
    omega

/-! Section: Claim C8: serial/field round trips -/

/-- Every serial value from the smallest to the largest representable date
is attained by a valid date. -/
theorem serial_covers :
    ∀ n : Nat, to_serial yminDate + (n : Int) ≤ to_serial ymaxDate →
      ∃ x : Ymd, Ymd.okB x = true ∧ to_serial x = to_serial yminDate + (n : Int) := by
  intro n
  induction n with
  | zero => exact fun _ => ⟨yminDate, by decide, by simp⟩
  | succ n ih =>
      intro h
      obtain ⟨x, hok, hser⟩ := ih (by push_cast at h ⊢; omega)
      have hne : x ≠ ymaxDate := by
        intro he
        rw [he] at hser
        push_cast at h
        omega
      refine ⟨nextDay x, ok_nextDay x hok hne, ?_⟩
      rw [serial_nextDay x hok, hser]
      push_cast
      ring

/-- Claim C8 (amended): on valid dates the serial conversion round-trips
(`ymd(sys_days(x)) = x` for every `ok()` date), and on every serial value
within the representable range — from `sys_days` of year -32767-01-01 to
`sys_days` of 32767-12-31 — the converse composition is the identity and
lands on a valid date.  Outside that range the year narrows modulo 2^16
(chrono's `short` storage) and the composition is not the identity (see
the counterexample). -/
theorem serial_roundtrip_range :
    (∀ x : Ymd, Ymd.okB x = true → civil_from_days (to_serial x) = x) ∧
    (∀ z : Int, to_serial yminDate ≤ z → z ≤ to_serial ymaxDate →
      Ymd.okB (civil_from_days z) = true ∧ to_serial (civil_from_days z) = z) := by
  refine ⟨from_to_serial, ?_⟩
  intro z h1 h2
  obtain ⟨x, hok, hser⟩ := serial_covers (z - to_serial yminDate).toNat (by omega)
  have hz : to_serial x = z := by omega
  rw [← hz, from_to_serial x hok]
  exact ⟨hok, rfl⟩

/-- Counterexample to claim C8 as stated: the serial value 13890172 (the
day count of civil 40000-01-01) maps under `ymd(sys_days)` to a date whose
year has wrapped to -25536, and converting back does not return 13890172 —
the composition is not the identity on all integers. -/
theorem serial_roundtrip_cex :
    to_serial (civil_from_days 13890172) ≠ 13890172 := by decide

/-- Witness for the amended claim C8 at a leap date and at a concrete
in-range serial value. -/
theorem serial_roundtrip_range_witness :
    civil_from_days (to_serial ⟨2024, 2, 29⟩) = ⟨2024, 2, 29⟩ ∧
    (Ymd.okB (civil_from_days 12345) = true ∧
      to_serial (civil_from_days 12345) = 12345) :=
  ⟨serial_roundtrip_range.1 ⟨2024, 2, 29⟩ (by decide),
   serial_roundtrip_range.2 12345 (by decide) (by decide)⟩

/-! Section: Claim C3: day counts one calendar year apart -/

/-- Same month/day dates one civil year apart are 365 or 366 serial days
apart. -/
theorem serial_year_gap (y m d : Int) (hm1 : 1 ≤ m) (hm2 : m ≤ 12) :
    365 ≤ days_from_civil (y + 1) m d - days_from_civil y m d ∧
    days_from_civil (y + 1) m d - days_from_civil y m d ≤ 366 := by
  have hsd1 := sdiff_leap (dfc_y1 y m)
  rw [days_from_civil_nf _ _ _ hm1 hm2, days_from_civil_nf _ _ _ hm1 hm2]
  have hy1 : dfc_y1 (y + 1) m = dfc_y1 y m + 1 := by
    unfold dfc_y1
    split_ifs <;> omega
  rw [hy1]
  constructor <;> omega

/-- Claim C3 (amended): for valid dates with the same month and day one
calendar year apart, the 30/360 convention yields exactly 1.0 years
(`years(360*dy + 30*dm + dd)/360.` is built directly in the `years` unit,
with no period conversion), but the three actual-based conventions scale
the true serial gap (365 or 366 days) by their fixed denominators and by
the days-to-years period conversion of the `years` return type, and none
of them yields exactly 1.0 years on such pairs — so the conventions do
not all agree with actual/actual there. -/
theorem dcf_exact_year_agreement (t0 t1 : Ymd)
    (h0 : Ymd.okB t0 = true) (h1 : Ymd.okB t1 = true)
    (hy : t1.year = t0.year + 1) (hm : t1.month = t0.month) (hd : t1.day = t0.day) :
    dcf_30_360 t0 t1 = 1 ∧
    dcf_years t0 t1 ≠ 1 ∧
    dcf_actual_360 t0 t1 ≠ 1 ∧
    dcf_actual_365 t0 t1 ≠ 1 := by
  rw [okB_iff] at h0
  have hser : to_serial t1 - to_serial t0
      = days_from_civil (t0.year + 1) (t0.month : Int) (t0.day : Int)
        - days_from_civil t0.year (t0.month : Int) (t0.day : Int) := by
    unfold to_serial
    rw [hy, hm, hd]
  have hgap : 365 ≤ to_serial t1 - to_serial t0 ∧ to_serial t1 - to_serial t0 ≤ 366 := by
    rw [hser]
    exact serial_year_gap t0.year (t0.month : Int) (t0.day : Int)
      (by exact_mod_cast h0.2.2.1) (by exact_mod_cast h0.2.2.2.1)
  refine ⟨?_, ?_, ?_, ?_⟩
  · unfold dcf_30_360
    rw [hy, hm, hd]
    split_ifs <;> first
      | (exfalso; omega)
      | (push_cast; ring_nf; try norm_num)
  · unfold dcf_years
    intro hcon
    rw [div_eq_iff (by norm_num : (146097 : Rat) ≠ 0), one_mul] at hcon
    have hcon2 : (to_serial t1 - to_serial t0) * 400 = 146097 := by exact_mod_cast hcon
    omega
  · unfold dcf_actual_360
    intro hcon
    rw [div_eq_iff (by norm_num : (146097 : Rat) ≠ 0), one_mul,
      div_mul_eq_mul_div, div_eq_iff (by norm_num : (360 : Rat) ≠ 0)] at hcon
    have hcon2 : (to_serial t1 - to_serial t0) * 400 = 146097 * 360 := by
      exact_mod_cast hcon
    omega
  · unfold dcf_actual_365
    intro hcon
    rw [div_eq_iff (by norm_num : (146097 : Rat) ≠ 0), one_mul,
      div_mul_eq_mul_div, div_eq_iff (by norm_num : (365 : Rat) ≠ 0)] at hcon
    have hcon2 : (to_serial t1 - to_serial t0) * 400 = 146097 * 365 := by
      exact_mod_cast hcon
    omega

/-- Counterexample to claim C3 as stated: across 2023-04-05 to 2024-04-05
(one true calendar year, same month/day) the actual/365 convention does
not return exactly 1.0 years — the source computes the 366-day gap over
365 and the `years` return type rescales by 400/146097. -/
theorem dcf_exact_year_agreement_cex :
    dcf_actual_365 ⟨2023, 4, 5⟩ ⟨2024, 4, 5⟩ ≠ 1 := by
  unfold dcf_actual_365
  have h : to_serial (⟨2024, 4, 5⟩ : Ymd) - to_serial (⟨2023, 4, 5⟩ : Ymd) = 366 := by
    decide
  rw [h]
  norm_num

/-- Witness for the amended claim C3 at the spec's example pair. -/
theorem dcf_exact_year_agreement_witness :
    dcf_30_360 ⟨2023, 4, 5⟩ ⟨2024, 4, 5⟩ = 1 ∧
    dcf_years ⟨2023, 4, 5⟩ ⟨2024, 4, 5⟩ ≠ 1 ∧
    dcf_actual_360 ⟨2023, 4, 5⟩ ⟨2024, 4, 5⟩ ≠ 1 ∧
    dcf_actual_365 ⟨2023, 4, 5⟩ ⟨2024, 4, 5⟩ ≠ 1 :=
  dcf_exact_year_agreement ⟨2023, 4, 5⟩ ⟨2024, 4, 5⟩ (by decide) (by decide)
    (by decide) (by decide) (by decide)

/-! Section: Claim C6: the modified-following month guard -/

/-- Claim C6: on a valid date, `modified_following` returns the
`following` result when that result stays in the starting month, and
otherwise returns the `previous` result. -/
theorem adjust_modified_following_guard (cal : Ymd → Bool) (x : Ymd) (fuel : Nat) (f : Ymd)
    (hok : Ymd.okB x = true)
    (hf : adjust cal Roll.following fuel x = some f) :
    (f.month = x.month → adjust cal Roll.modified_following fuel x = some f) ∧
    (f.month ≠ x.month → adjust cal Roll.modified_following fuel x
        = adjust cal Roll.previous fuel x) := by
  have hstep0 : stepDays x 0 = x := by
    unfold stepDays
    rw [add_zero]
    exact from_to_serial x hok
  by_cases hc : cal x = false
  · have hfx : x = f := by
      unfold adjust at hf
      rw [if_pos hc] at hf
      injection hf
    constructor
    · intro _
      unfold adjust
      rw [if_pos hc, hfx]
    · intro hne
      exact absurd (by rw [← hfx]) hne
  · have hf2 : adjustGo cal 1 fuel x = some f := by
      unfold adjust at hf
      rw [if_neg hc] at hf
      exact hf
    constructor
    · intro hmeq
      simp only [adjust]
      rw [if_neg hc]
      simp only [hstep0, hf2]
      rw [if_pos hmeq]
    · intro hne
      simp only [adjust]
      rw [if_neg hc, if_neg hc]
      simp only [hstep0, hf2]
      rw [if_neg hne]

/-- Witness for claim C6: Saturday 2023-09-30 rolls `following` to Monday
2023-10-02, which leaves September, so `modified_following` resolves to
the `previous` business day 2023-09-29 within the original month. -/
theorem adjust_modified_following_guard_witness :
    adjust calendars_weekday Roll.modified_following 5 ⟨2023, 9, 30⟩
      = adjust calendars_weekday Roll.previous 5 ⟨2023, 9, 30⟩ ∧
    adjust calendars_weekday Roll.previous 5 ⟨2023, 9, 30⟩ = some ⟨2023, 9, 29⟩ :=
  ⟨(adjust_modified_following_guard calendars_weekday ⟨2023, 9, 30⟩ 5 ⟨2023, 10, 2⟩
      (by decide) (by decide)).2 (by decide),
   by decide⟩
